import Mathlib

/-!
# Verification of `primes.c` (bit-packed Sieve of Eratosthenes)

Shallow embedding of the program in `src/primes.c`.  The byte buffer
allocated by `calloc` is modelled as a `List Nat` of byte values; the raw
pointers `start`, `end`, `endsqrt`, `current` are modelled as natural-number
byte indices relative to `start` (so `start` is index `0`).  The C program
keeps the byte pointer `current` and the integer index `pointind` in
lockstep, so a single index suffices.  Reads past the end of the list
return `0` (`List.getD`), and writes past the end are no-ops (`List.set`);
in-bounds behaviour coincides with the C program.

The two loops whose termination depends on the cursor actually advancing
(`eliminateMults`' crossing loop and the drivers' sieve/print loops) are
embedded with an explicit step budget that is large enough for every run
the program performs; the scan loop of `searchForZero` is embedded by
well-founded recursion.  `(int)sqrt(max)` (with `max` a power of two) is
modelled as `Nat.sqrt max`.
-/

namespace Primes

/-- Byte at index `i` of the buffer (`0` for an out-of-range read). -/
def byteAt (buf : List Nat) (i : Nat) : Nat := buf.getD i 0

/-- Embedding of `setToOne` from primes.c: `(*current) |= (SPECIAL_ONE >> ind)` with
`SPECIAL_ONE = 128`. -/
def setToOne (buf : List Nat) (current ind : Nat) : List Nat :=
  buf.set current (byteAt buf current ||| (128 >>> ind))

/-- The bit test performed by `searchForZero`:
`temp = (**current) << (*ind); temp &= SPECIAL_ONE; temp != 0`. -/
def testBitAt (buf : List Nat) (pointind ind : Nat) : Bool :=
  ((byteAt buf pointind) <<< ind) &&& 128 != 0

/-- Abstract view of the buffer: the bit representing the integer `n`
(byte `n / 8`, mask `0x80 >> (n % 8)`, i.e. bit `7 - n % 8` counted from
the least significant end). -/
def bitOne (buf : List Nat) (n : Nat) : Bool :=
  (byteAt buf (n / 8)).testBit (7 - n % 8)

/-- One advance of `eliminateMults`' cursor:
`current += pointind; currind += ind;` followed by the single carry
`if (currind >= CHAR_BIT) { current++; currind -= CHAR_BIT; }`. -/
def elimStep (pointind ind : Nat) (c : Nat × Nat) : Nat × Nat :=
  if 8 ≤ c.2 + ind then (c.1 + pointind + 1, c.2 + ind - 8)
  else (c.1 + pointind, c.2 + ind)

/-- The `while (current < end)` loop of `eliminateMults`, with an explicit
step budget (the C loop diverges when `pointind = ind = 0`, a call the
program never makes). -/
def elimLoop (e pointind ind : Nat) (buf : List Nat) (cur cind : Nat) :
    Nat → List Nat
  | 0 => buf
  | fuel + 1 =>
    if cur < e then
      elimLoop e pointind ind (setToOne buf cur cind)
        (elimStep pointind ind (cur, cind)).1
        (elimStep pointind ind (cur, cind)).2 fuel
    else buf

/-- Embedding of `eliminateMults` from primes.c.  `e` is the `end` pointer as a byte
index.  The initial cursor is
`current = start + (CHAR_BIT*pointind*pointind + 2*pointind*ind)`,
`currind = ind*ind`, adjusted once by `currind / 8` / `currind % 8`. -/
def eliminateMults (buf : List Nat) (e : Nat) (pointind ind : Nat) :
    List Nat :=
  let current := 8 * pointind * pointind + 2 * pointind * ind
  let currind := ind * ind
  elimLoop e pointind ind buf
    (if 8 ≤ currind then current + currind / 8 else current)
    (if 8 ≤ currind then currind % 8 else currind)
    (8 * e + 8)

/-- The `while (*current < end)` scan loop of `searchForZero`.  Returns the
pair `(pointind, ind)`; on exhaustion `ind` is the sentinel `-1`. -/
def scanLoop (buf : List Nat) (e : Nat) (pointind ind : Nat) : Nat × Int :=
  if pointind < e then
    if testBitAt buf pointind ind then
      if 8 ≤ ind + 1 then scanLoop buf e (pointind + 1) (ind + 1 - 8)
      else scanLoop buf e pointind (ind + 1)
    else (pointind, (ind : Int))
  else (pointind, -1)
termination_by (e - pointind) * 8 + (8 - ind)
decreasing_by
  · omega
  · omega

/-- Embedding of `searchForZero` from primes.c: skip the current position
(`(*ind)++` with carry), then scan. -/
def searchForZero (buf : List Nat) (e : Nat) (pointind ind : Nat) :
    Nat × Int :=
  if 8 ≤ ind + 1 then scanLoop buf e (pointind + 1) (ind + 1 - 8)
  else scanLoop buf e pointind (ind + 1)

/-- The `while (ind != -1)` loop of `findPrimes`, with an explicit step
budget (each found prime is strictly larger than the previous one, so
`8*e + 8` iterations always suffice). -/
def findLoop (e endsqrt : Nat) (buf : List Nat) (pointind ind : Nat) :
    Nat → List Nat
  | 0 => buf
  | fuel + 1 =>
    let buf' := eliminateMults buf e pointind ind
    let s := searchForZero buf' endsqrt pointind ind
    if s.2 = -1 then buf'
    else findLoop e endsqrt buf' s.1 s.2.toNat fuel

/-- Embedding of `findPrimes` from primes.c: mark 0 and 1, start the cursor at the
integer 2 (`pointind = 0`, `ind = 2`), then alternate `eliminateMults`
and `searchForZero` (bounded by `endsqrt`) until the scan is exhausted. -/
def findPrimes (buf : List Nat) (endsqrt e : Nat) : List Nat :=
  findLoop e endsqrt (setToOne (setToOne buf 0 0) 0 1) 0 2 (8 * endsqrt + 8)

/-- The `while (ind != -1)` loop of `printPrimes`, collecting the values
`CHAR_BIT * pointind + ind` that the C program prints. -/
def printLoop (buf : List Nat) (e : Nat) (pointind ind : Nat) :
    Nat → List Nat
  | 0 => []
  | fuel + 1 =>
    let s := searchForZero buf e pointind ind
    if s.2 = -1 then []
    else (8 * s.1 + s.2.toNat) :: printLoop buf e s.1 s.2.toNat fuel

/-- Embedding of `printPrimes` from primes.c: scan the whole buffer from
`pointind = 0`, `ind = 0` and report each clear bit's integer value. -/
def printPrimes (buf : List Nat) (e : Nat) : List Nat :=
  printLoop buf e 0 0 (8 * e + 8)

/-- Embedding of `max = 1 << (power - 3)` from `main`. -/
def mainMax (power : Nat) : Nat := 1 <<< (power - 3)

/-- Embedding of `endsqrt = start + (int)sqrt(max) + 1` from `main`, as a byte index. -/
def mainEndsqrt (power : Nat) : Nat := Nat.sqrt (mainMax power) + 1

/-- The buffer produced by `findPrimes` on the zero-initialized
`calloc` buffer, as wired up by `main`. -/
def mainRun (power : Nat) : List Nat :=
  findPrimes (List.replicate (mainMax power) 0) (mainEndsqrt power)
    (mainMax power)

/-- The sequence of numbers `main` writes to `primes.txt`, in order. -/
def mainPrimes (power : Nat) : List Nat :=
  printPrimes (mainRun power) (mainMax power)

/-- The full text of `primes.txt`: each number in decimal followed by a
newline. -/
def primesFile (power : Nat) : String :=
  String.join ((mainPrimes power).map (fun p => toString p ++ "\n"))

/-- The default `POWER` from primes.c. -/
def POWER : Int := 20

/-- Model of C `atoi`: optional leading whitespace, optional sign, then a
maximal run of decimal digits (`0` if there is none). -/
def atoiDigits (cs : List Char) : Nat :=
  (cs.takeWhile (fun c => c.isDigit)).foldl
    (fun a c => 10 * a + (c.toNat - 48)) 0

/-- Model of C `atoi` on a full argument string. -/
def atoi (s : String) : Int :=
  match s.toList.dropWhile (fun c => c = ' ' ∨ c = '\t' ∨ c = '\n' ∨
      c = '\r' ∨ c = '\x0b' ∨ c = '\x0c') with
  | '-' :: rest => -(atoiDigits rest : Int)
  | '+' :: rest => (atoiDigits rest : Int)
  | cs => (atoiDigits cs : Int)

/-- The argument processing of `main`.  `args` is the argument vector
after the program name (so `argc != 2` becomes `args.length ≠ 1`).
Returns the power that is used together with the lines written to
`stderr` (the conditional `Invalid value for power` diagnostic followed
by the unconditional `power = <P>` report). -/
def parsePower (args : List String) : Int × List String :=
  match args with
  | [a] =>
    if atoi a < 3 then
      (POWER, ["Invalid value for power", "power = " ++ toString POWER])
    else (atoi a, ["power = " ++ toString (atoi a)])
  | _ => (POWER, ["power = " ++ toString POWER])

/-- The `primes.txt` contents produced by a full program invocation. -/
def programFile (args : List String) : String :=
  primesFile (parsePower args).1.toNat

/-! ## Byte- and bit-level lemmas -/

theorem byteAt_set (buf : List Nat) (c v j : Nat) :
    byteAt (buf.set c v) j =
      if j = c ∧ c < buf.length then v else byteAt buf j := by
  simp only [byteAt, List.getD_eq_getElem?_getD, List.getElem?_set]
  by_cases h1 : c = j
  · subst h1
    by_cases h2 : c < buf.length
    · simp [h2]
    · have hn : buf[c]? = none :=
        List.getElem?_eq_none (Nat.le_of_not_lt h2)
      simp [h2, hn]
  · rw [if_neg h1, if_neg (fun h => h1 h.1.symm)]

theorem setToOne_length (buf : List Nat) (c i : Nat) :
    (setToOne buf c i).length = buf.length :=
  List.length_set ..

theorem mask_eq_two_pow {i : Nat} (hi : i ≤ 7) :
    128 >>> i = 2 ^ (7 - i) := by
  interval_cases i <;> rfl

theorem bitOne_setToOne (buf : List Nat) (c i n : Nat) (hi : i ≤ 7) :
    bitOne (setToOne buf c i) n =
      (bitOne buf n || decide (n = 8 * c + i ∧ c < buf.length)) := by
  have hmod : n % 8 < 8 := Nat.mod_lt _ (by norm_num)
  have hdiv : n = 8 * (n / 8) + n % 8 := by omega
  unfold bitOne setToOne
  rw [byteAt_set]
  by_cases h : n / 8 = c ∧ c < buf.length
  · obtain ⟨h1, h2⟩ := h
    rw [if_pos ⟨h1, h2⟩, Nat.testBit_lor, mask_eq_two_pow hi, h1,
      Nat.testBit_two_pow]
    congr 1
    rw [decide_eq_decide]
    constructor
    · intro he; exact ⟨by omega, h2⟩
    · intro he; omega
  · rw [if_neg h, decide_eq_false (fun hc => h ⟨by omega, hc.2⟩),
      Bool.or_false]

theorem bitOne_of_ge (buf : List Nat) (n : Nat) (h : 8 * buf.length ≤ n) :
    bitOne buf n = false := by
  unfold bitOne byteAt
  rw [List.getD_eq_default _ _ (by omega), Nat.zero_testBit]

theorem testBitAt_eq_bitOne (buf : List Nat) (p i : Nat) (hi : i ≤ 7) :
    testBitAt buf p i = bitOne buf (8 * p + i) := by
  unfold testBitAt bitOne
  have h1 : (8 * p + i) / 8 = p := by omega
  have h2 : (8 * p + i) % 8 = i := by omega
  rw [h1, h2]
  have h128 : (128 : Nat) = 2 ^ 7 := by norm_num
  rw [h128, Nat.and_two_pow, Nat.testBit_shiftLeft]
  have hge : decide (7 ≥ i) = true := by simpa using hi
  rw [hge, Bool.true_and]
  cases hb : (byteAt buf p).testBit (7 - i) <;> simp [hb]

theorem byteAt_lt_of_bytes_lt {buf : List Nat} (c : Nat)
    (h : ∀ b ∈ buf, b < 256) : byteAt buf c < 256 := by
  unfold byteAt
  rcases lt_or_ge c buf.length with hc | hc
  · rw [List.getD_eq_getElem _ _ hc]
    exact h _ (List.getElem_mem hc)
  · rw [List.getD_eq_default _ _ hc]; norm_num

theorem setToOne_bytes_lt {buf : List Nat} (c i : Nat)
    (h : ∀ b ∈ buf, b < 256) : ∀ b ∈ setToOne buf c i, b < 256 := by
  intro b hb
  rcases List.mem_or_eq_of_mem_set hb with h1 | h1
  · exact h b h1
  · subst h1
    have h2 : byteAt buf c < 256 := byteAt_lt_of_bytes_lt c h
    have h3 : (128 : Nat) >>> i < 256 := by
      rw [Nat.shiftRight_eq_div_pow]
      have := Nat.div_le_self 128 (2 ^ i)
      omega
    have h256 : (256 : Nat) = 2 ^ 8 := by norm_num
    rw [h256] at h2 h3 ⊢
    exact Nat.or_lt_two_pow h2 h3

/-- Two buffers of equal length, all bytes below 256, agreeing on every
bit, are equal. -/
theorem buf_ext {buf1 buf2 : List Nat} (hlen : buf1.length = buf2.length)
    (hb1 : ∀ b ∈ buf1, b < 256) (hb2 : ∀ b ∈ buf2, b < 256)
    (hbit : ∀ n, bitOne buf1 n = bitOne buf2 n) : buf1 = buf2 := by
  apply List.ext_getElem hlen
  intro j hj1 hj2
  have e1 : buf1[j] = byteAt buf1 j := (List.getD_eq_getElem _ _ hj1).symm
  have e2 : buf2[j] = byteAt buf2 j := (List.getD_eq_getElem _ _ hj2).symm
  rw [e1, e2]
  apply Nat.eq_of_testBit_eq
  intro k
  rcases le_or_lt k 7 with hk | hk
  · have h1 := hbit (8 * j + (7 - k))
    unfold bitOne at h1
    have hd : (8 * j + (7 - k)) / 8 = j := by omega
    have hm : 7 - (8 * j + (7 - k)) % 8 = k := by omega
    rwa [hd, hm] at h1
  · have l1 : byteAt buf1 j < 2 ^ k := by
      have := byteAt_lt_of_bytes_lt j hb1
      have : (256 : Nat) ≤ 2 ^ k := by
        calc (256 : Nat) = 2 ^ 8 := by norm_num
        _ ≤ 2 ^ k := Nat.pow_le_pow_right (by norm_num) (by omega)
      omega
    have l2 : byteAt buf2 j < 2 ^ k := by
      have := byteAt_lt_of_bytes_lt j hb2
      have : (256 : Nat) ≤ 2 ^ k := by
        calc (256 : Nat) = 2 ^ 8 := by norm_num
        _ ≤ 2 ^ k := Nat.pow_le_pow_right (by norm_num) (by omega)
      omega
    rw [Nat.testBit_lt_two_pow l1, Nat.testBit_lt_two_pow l2]

/-! ## The crossing loop of `eliminateMults` -/

theorem elimStep_snd_le (q r : Nat) (c : Nat × Nat) (hr : r ≤ 7)
    (hc : c.2 ≤ 7) : (elimStep q r c).2 ≤ 7 := by
  unfold elimStep
  split <;> dsimp only <;> omega

theorem elimStep_pos (q r cur cind : Nat) :
    8 * (elimStep q r (cur, cind)).1 + (elimStep q r (cur, cind)).2 + 8 =
      8 * cur + cind + (8 * q + r) + 8 := by
  unfold elimStep
  split <;> dsimp only at * <;> omega

theorem elimLoop_length (e q r : Nat) : ∀ fuel buf cur cind,
    (elimLoop e q r buf cur cind fuel).length = buf.length := by
  intro fuel
  induction fuel with
  | zero => intro buf cur cind; rfl
  | succ f ih =>
    intro buf cur cind
    unfold elimLoop
    split
    · rw [ih, setToOne_length]
    · rfl

theorem bitOne_setToOne_mono (buf : List Nat) (c i n : Nat)
    (h : bitOne buf n = true) : bitOne (setToOne buf c i) n = true := by
  unfold bitOne setToOne at *
  rw [byteAt_set]
  by_cases hc : n / 8 = c ∧ c < buf.length
  · rw [if_pos hc, Nat.testBit_lor, ← hc.1, h, Bool.true_or]
  · rw [if_neg hc]; exact h

theorem elimLoop_mono (e q r : Nat) : ∀ fuel buf cur cind n,
    bitOne buf n = true →
    bitOne (elimLoop e q r buf cur cind fuel) n = true := by
  intro fuel
  induction fuel with
  | zero => intro buf cur cind n h; exact h
  | succ f ih =>
    intro buf cur cind n h
    unfold elimLoop
    split
    · exact ih _ _ _ _ (bitOne_setToOne_mono _ _ _ _ h)
    · exact h

theorem elimLoop_bytes_lt (e q r : Nat) : ∀ fuel buf cur cind,
    (∀ b ∈ buf, b < 256) →
    ∀ b ∈ elimLoop e q r buf cur cind fuel, b < 256 := by
  intro fuel
  induction fuel with
  | zero => intro buf cur cind h; exact h
  | succ f ih =>
    intro buf cur cind h
    unfold elimLoop
    split
    · exact ih _ _ _ (setToOne_bytes_lt _ _ h)
    · exact h

/-- The crossing loop sets exactly the bits at the positions
`8*cur + cind + k*(8*q + r)` that lie (bytewise) before `e`, provided the
step budget is large enough and the step `8*q + r` is nonzero. -/
theorem elimLoop_bitOne (e q r : Nat) (hr : r ≤ 7) (hp : 1 ≤ 8 * q + r) :
    ∀ fuel buf cur cind n, cind ≤ 7 → e ≤ buf.length →
    8 * e ≤ 8 * cur + cind + fuel * (8 * q + r) →
    (bitOne (elimLoop e q r buf cur cind fuel) n = true ↔
      (bitOne buf n = true ∨
        ∃ k, n = 8 * cur + cind + (8 * q + r) * k ∧ n < 8 * e)) := by
  intro fuel
  induction fuel with
  | zero =>
    intro buf cur cind n hcind he hfuel
    simp only [elimLoop]
    constructor
    · exact Or.inl
    · rintro (h | ⟨k, hk, hlt⟩)
      · exact h
      · exfalso
        have hge : 8 * cur + cind ≤ n := by
          rw [hk]; exact Nat.le_add_right _ _
        omega
  | succ f ih =>
    intro buf cur cind n hcind he hfuel
    unfold elimLoop
    by_cases hcur : cur < e
    · rw [if_pos hcur]
      have hstep2 : (elimStep q r (cur, cind)).2 ≤ 7 :=
        elimStep_snd_le q r (cur, cind) hr hcind
      have hpos := elimStep_pos q r cur cind
      rw [ih _ _ _ n hstep2 (by rw [setToOne_length]; exact he)
        (by rw [Nat.add_mul, Nat.one_mul] at hfuel; omega)]
      rw [bitOne_setToOne _ _ _ _ hcind]
      have hcl : cur < buf.length := lt_of_lt_of_le hcur he
      simp only [Bool.or_eq_true, decide_eq_true_eq]
      constructor
      · rintro ((h | ⟨hn, _⟩) | ⟨k, hk, hlt⟩)
        · exact Or.inl h
        · exact Or.inr ⟨0, by omega, by omega⟩
        · refine Or.inr ⟨k + 1, ?_, hlt⟩
          rw [Nat.mul_succ]
          omega
      · rintro (h | ⟨k, hk, hlt⟩)
        · exact Or.inl (Or.inl h)
        · rcases k with _ | k
          · exact Or.inl (Or.inr ⟨by omega, hcl⟩)
          · refine Or.inr ⟨k, ?_, hlt⟩
            rw [Nat.mul_succ] at hk
            omega
    · rw [if_neg hcur]
      constructor
      · exact Or.inl
      · rintro (h | ⟨k, hk, hlt⟩)
        · exact h
        · exfalso
          have hge : 8 * cur + cind ≤ n := by
            rw [hk]; exact Nat.le_add_right _ _
          omega

theorem eliminateMults_length (buf : List Nat) (e q i : Nat) :
    (eliminateMults buf e q i).length = buf.length :=
  elimLoop_length ..

theorem eliminateMults_mono (buf : List Nat) (e q i n : Nat)
    (h : bitOne buf n = true) :
    bitOne (eliminateMults buf e q i) n = true :=
  elimLoop_mono _ _ _ _ _ _ _ _ h

theorem eliminateMults_bytes_lt (buf : List Nat) (e q i : Nat)
    (h : ∀ b ∈ buf, b < 256) :
    ∀ b ∈ eliminateMults buf e q i, b < 256 :=
  elimLoop_bytes_lt _ _ _ _ _ _ _ h

/-- Characterization: `eliminateMults` sets exactly the bits of the multiples of
`p = 8*pointind + ind` that are at least `p²` and below `8*e`,
and changes nothing else. -/
theorem eliminateMults_bitOne (buf : List Nat) (e q i n : Nat) (hi : i ≤ 7)
    (hp : 1 ≤ 8 * q + i) (he : e ≤ buf.length) :
    (bitOne (eliminateMults buf e q i) n = true ↔
      (bitOne buf n = true ∨
        ((8 * q + i) * (8 * q + i) ≤ n ∧ (8 * q + i) ∣ n ∧ n < 8 * e))) := by
  unfold eliminateMults
  have hexp : (8 * q + i) * (8 * q + i) = 8 * (8 * q * q + 2 * q * i) + i * i := by
    ring
  have hsq : 8 * (if 8 ≤ i * i then 8 * q * q + 2 * q * i + i * i / 8
        else 8 * q * q + 2 * q * i) +
      (if 8 ≤ i * i then i * i % 8 else i * i) =
      (8 * q + i) * (8 * q + i) := by
    by_cases h8 : 8 ≤ i * i <;> simp only [h8, if_true, if_false] <;> omega
  have hcind : (if 8 ≤ i * i then i * i % 8 else i * i) ≤ 7 := by
    by_cases h8 : 8 ≤ i * i <;> simp only [h8, if_true, if_false] <;> omega
  have hfuel : 8 * e ≤
      8 * (if 8 ≤ i * i then 8 * q * q + 2 * q * i + i * i / 8
          else 8 * q * q + 2 * q * i) +
        (if 8 ≤ i * i then i * i % 8 else i * i) +
        (8 * e + 8) * (8 * q + i) := by
    have hm := Nat.mul_le_mul_left (8 * e + 8) hp
    omega
  rw [elimLoop_bitOne e q i hi hp _ _ _ _ _ hcind he hfuel]
  constructor
  · rintro (h | ⟨k, hk, hlt⟩)
    · exact Or.inl h
    · refine Or.inr ⟨?_, ⟨8 * q + i + k, ?_⟩, hlt⟩
      · rw [hk, hsq]; exact Nat.le_add_right _ _
      · rw [hk, hsq]; ring
  · rintro (h | ⟨hsqle, ⟨m, hm⟩, hlt⟩)
    · exact Or.inl h
    · refine Or.inr ⟨m - (8 * q + i), ?_, hlt⟩
      have hmul : (8 * q + i) * (8 * q + i) ≤ (8 * q + i) * m := by omega
      have hmge : 8 * q + i ≤ m :=
        Nat.le_of_mul_le_mul_left hmul (by omega)
      have hre : (8 * q + i) * m =
          (8 * q + i) * (8 * q + i) + (8 * q + i) * (m - (8 * q + i)) := by
        rw [← Nat.mul_add]
        congr 1
        omega
      rw [hsq]
      omega

/-- When `p² ≥ 8*e`, `eliminateMults` is the identity: the crossing loop
is entered zero times. -/
theorem eliminateMults_noop (buf : List Nat) (e q i : Nat) (hi : i ≤ 7)
    (hge : 8 * e ≤ (8 * q + i) * (8 * q + i)) :
    eliminateMults buf e q i = buf := by
  unfold eliminateMults
  have hexp : (8 * q + i) * (8 * q + i) = 8 * (8 * q * q + 2 * q * i) + i * i := by
    ring
  have hcur : ¬ (if 8 ≤ i * i then 8 * q * q + 2 * q * i + i * i / 8
      else 8 * q * q + 2 * q * i) < e := by
    by_cases h8 : 8 ≤ i * i <;> simp only [h8, if_true, if_false] <;> omega
  rw [show 8 * e + 8 = (8 * e + 7) + 1 by omega]
  simp only [elimLoop]
  rw [if_neg hcur]


/-! ## The scan loop of `searchForZero` -/

/-- If `m` is the first clear bit at or after the scan's start position
and its byte lies before `e`, the scan stops exactly at `m`. -/
theorem scanLoop_found (buf : List Nat) (e : Nat) :
    ∀ d p i m, i ≤ 7 → 8 * p + i ≤ m → m < 8 * e →
    bitOne buf m = false →
    (∀ x, 8 * p + i ≤ x → x < m → bitOne buf x = true) →
    m - (8 * p + i) = d →
    scanLoop buf e p i = (m / 8, ((m % 8 : Nat) : Int)) := by
  intro d
  induction d with
  | zero =>
    intro p i m hi hle hm hclear hall hd
    have hme : m = 8 * p + i := by omega
    subst hme
    have hpe : p < e := by omega
    have htest : testBitAt buf p i = false := by
      rw [testBitAt_eq_bitOne buf p i hi]; exact hclear
    have h1 : (8 * p + i) / 8 = p := by omega
    have h2 : (8 * p + i) % 8 = i := by omega
    rw [scanLoop, if_pos hpe, htest, h1, h2]
    simp
  | succ d ih =>
    intro p i m hi hle hm hclear hall hd
    have hpe : p < e := by omega
    have htest : testBitAt buf p i = true := by
      rw [testBitAt_eq_bitOne buf p i hi]
      exact hall _ (le_refl _) (by omega)
    rw [scanLoop, if_pos hpe, htest]
    by_cases h8 : 8 ≤ i + 1
    · simp only [if_true, h8]
      exact ih (p + 1) (i + 1 - 8) m (by omega) (by omega) hm hclear
        (fun x hx1 hx2 => hall x (by omega) hx2) (by omega)
    · simp only [if_true, h8, if_false]
      exact ih p (i + 1) m (by omega) (by omega) hm hclear
        (fun x hx1 hx2 => hall x (by omega) hx2) (by omega)

/-- If every bit from the scan's start position up to the byte bound `e`
is set, the scan returns the sentinel `ind = -1`. -/
theorem scanLoop_exhausted (buf : List Nat) (e : Nat) :
    ∀ d p i, i ≤ 7 →
    (∀ x, 8 * p + i ≤ x → x < 8 * e → bitOne buf x = true) →
    8 * e - (8 * p + i) = d →
    (scanLoop buf e p i).2 = -1 := by
  intro d
  induction d with
  | zero =>
    intro p i hi hall hd
    have hpe : ¬ p < e := by omega
    rw [scanLoop, if_neg hpe]
  | succ d ih =>
    intro p i hi hall hd
    by_cases hpe : p < e
    · have htest : testBitAt buf p i = true := by
        rw [testBitAt_eq_bitOne buf p i hi]
        exact hall _ (le_refl _) (by omega)
      rw [scanLoop, if_pos hpe, htest]
      by_cases h8 : 8 ≤ i + 1
      · simp only [if_true, h8]
        exact ih (p + 1) (i + 1 - 8) (by omega)
          (fun x hx1 hx2 => hall x (by omega) hx2) (by omega)
      · simp only [if_true, h8, if_false]
        exact ih p (i + 1) (by omega)
          (fun x hx1 hx2 => hall x (by omega) hx2) (by omega)
    · rw [scanLoop, if_neg hpe]

theorem searchForZero_found (buf : List Nat) (e p i m : Nat) (hi : i ≤ 7)
    (hlt : 8 * p + i < m) (hm : m < 8 * e) (hclear : bitOne buf m = false)
    (hall : ∀ x, 8 * p + i < x → x < m → bitOne buf x = true) :
    searchForZero buf e p i = (m / 8, ((m % 8 : Nat) : Int)) := by
  unfold searchForZero
  by_cases h8 : 8 ≤ i + 1
  · rw [if_pos h8]
    exact scanLoop_found buf e (m - (8 * (p + 1) + (i + 1 - 8))) (p + 1)
      (i + 1 - 8) m (by omega) (by omega) hm hclear
      (fun x hx1 hx2 => hall x (by omega) hx2) rfl
  · rw [if_neg h8]
    exact scanLoop_found buf e (m - (8 * p + (i + 1))) p (i + 1) m
      (by omega) (by omega) hm hclear
      (fun x hx1 hx2 => hall x (by omega) hx2) rfl

theorem searchForZero_exhausted (buf : List Nat) (e p i : Nat) (hi : i ≤ 7)
    (hall : ∀ x, 8 * p + i < x → x < 8 * e → bitOne buf x = true) :
    (searchForZero buf e p i).2 = -1 := by
  unfold searchForZero
  by_cases h8 : 8 ≤ i + 1
  · rw [if_pos h8]
    exact scanLoop_exhausted buf e (8 * e - (8 * (p + 1) + (i + 1 - 8)))
      (p + 1) (i + 1 - 8) (by omega)
      (fun x hx1 hx2 => hall x (by omega) hx2) rfl
  · rw [if_neg h8]
    exact scanLoop_exhausted buf e (8 * e - (8 * p + (i + 1))) p (i + 1)
      (by omega) (fun x hx1 hx2 => hall x (by omega) hx2) rfl

/-- Complete case analysis of `searchForZero`: either there is a first
clear bit strictly after the start and before the byte bound and the scan
returns exactly its cursor, or there is none and the scan returns the
sentinel. -/
theorem searchForZero_cases (buf : List Nat) (e p i : Nat) (hi : i ≤ 7) :
    (∃ m, 8 * p + i < m ∧ m < 8 * e ∧ bitOne buf m = false ∧
      (∀ x, 8 * p + i < x → x < m → bitOne buf x = true) ∧
      searchForZero buf e p i = (m / 8, ((m % 8 : Nat) : Int))) ∨
    ((∀ x, 8 * p + i < x → x < 8 * e → bitOne buf x = true) ∧
      (searchForZero buf e p i).2 = -1) := by
  by_cases hex : ∃ m, 8 * p + i < m ∧ m < 8 * e ∧ bitOne buf m = false
  · left
    have hspec := Nat.find_spec hex
    have hall : ∀ x, 8 * p + i < x → x < Nat.find hex →
        bitOne buf x = true := by
      intro x hx1 hx2
      cases hbx : bitOne buf x
      · exact absurd ⟨hx1, by omega, hbx⟩ (Nat.find_min hex hx2)
      · rfl
    exact ⟨Nat.find hex, hspec.1, hspec.2.1, hspec.2.2, hall,
      searchForZero_found buf e p i _ hi hspec.1 hspec.2.1 hspec.2.2 hall⟩
  · right
    have hall : ∀ x, 8 * p + i < x → x < 8 * e → bitOne buf x = true := by
      intro x hx1 hx2
      cases hbx : bitOne buf x
      · exact absurd ⟨x, hx1, hx2, hbx⟩ hex
      · rfl
    exact ⟨hall, searchForZero_exhausted buf e p i hi hall⟩

/-! ## The sieving driver -/

/-- A multiple `n` of `c` with `c ≥ 2` and `c² ≤ n` is not prime. -/
theorem not_prime_of_multiple {c n : Nat} (hc : 2 ≤ c) (hsq : c * c ≤ n)
    (hdvd : c ∣ n) : ¬ n.Prime := by
  intro hpr
  rcases hpr.eq_one_or_self_of_dvd c hdvd with h1 | h1
  · omega
  · have hcc : c * 2 ≤ c * c := Nat.mul_le_mul_left c hc
    omega

/-- Main invariant argument for the sieving loop.  If the cursor sits at
an integer `≥ 2` below the scan bound, the step budget covers the
remaining scan positions, every prime whose square is below `8*e` lies
below the scan bound, bits 0 and 1 are set, every set bit is a non-prime
below `8*e`, and for every prime below the cursor all its multiples from
the square on (below `8*e`) are set — then the loop fully sieves the
buffer: bit `n` ends up set iff `n < 8*e` and `n` is 0, 1 or composite. -/
theorem findLoop_sieves (e endsqrt : Nat)
    (hbound : ∀ l, l * l < 8 * e → l < 8 * endsqrt) :
    ∀ fuel buf q i, i ≤ 7 → 2 ≤ 8 * q + i → 8 * q + i < 8 * endsqrt →
    e ≤ buf.length → 8 * endsqrt ≤ 8 * q + i + fuel →
    bitOne buf 0 = true → bitOne buf 1 = true →
    (∀ n, bitOne buf n = true → n < 8 * e ∧ (n < 2 ∨ ¬ n.Prime)) →
    (∀ p, p.Prime → p < 8 * q + i →
      ∀ n, n < 8 * e → p ∣ n → p * p ≤ n → bitOne buf n = true) →
    ∀ n, (bitOne (findLoop e endsqrt buf q i fuel) n = true ↔
      (n < 8 * e ∧ (n < 2 ∨ ¬ n.Prime))) := by
  intro fuel
  induction fuel with
  | zero =>
    intro buf q i hi h2 hlt he hfuel h0 h1 hB hC n
    exfalso
    omega
  | succ f ih =>
    intro buf q i hi h2 hlt he hfuel h0 h1 hB hC n
    simp only [findLoop]
    have hp1 : 1 ≤ 8 * q + i := by omega
    have hel := fun m => eliminateMults_bitOne buf e q i m hi hp1 he
    have hel_len : (eliminateMults buf e q i).length = buf.length :=
      eliminateMults_length ..
    have hB' : ∀ m, bitOne (eliminateMults buf e q i) m = true →
        m < 8 * e ∧ (m < 2 ∨ ¬ m.Prime) := by
      intro m hm
      rcases (hel m).mp hm with h | ⟨hsq, hdvd, hlt'⟩
      · exact hB m h
      · exact ⟨hlt', Or.inr (not_prime_of_multiple (by omega) hsq hdvd)⟩
    have hC' : ∀ p, p.Prime → p ≤ 8 * q + i →
        ∀ m, m < 8 * e → p ∣ m → p * p ≤ m →
        bitOne (eliminateMults buf e q i) m = true := by
      intro p hpr hple m hm hdvd hsq
      rcases Nat.lt_or_ge p (8 * q + i) with hplt | hpge
      · exact eliminateMults_mono _ _ _ _ _ (hC p hpr hplt m hm hdvd hsq)
      · have hpe : p = 8 * q + i := by omega
        subst hpe
        exact (hel m).mpr (Or.inr ⟨hsq, hdvd, hm⟩)
    rcases searchForZero_cases (eliminateMults buf e q i) endsqrt q i hi
      with ⟨m, hm1, hm2, hm3, hm4, hm5⟩ | ⟨hall, hsent⟩
    · -- the scan found the next cursor, at position m
      rw [hm5]
      have hcond : ¬ ((m / 8, ((m % 8 : Nat) : Int)).2 = -1) := by
        dsimp only
        omega
      rw [if_neg hcond]
      dsimp only
      rw [Int.toNat_natCast]
      have hm8 : 8 * (m / 8) + m % 8 = m := by omega
      have hC2 : ∀ p, p.Prime → p < 8 * (m / 8) + m % 8 →
          ∀ x, x < 8 * e → p ∣ x → p * p ≤ x →
          bitOne (eliminateMults buf e q i) x = true := by
        intro p hpr hplt x hx hdvd hsq
        rcases le_or_lt p (8 * q + i) with hple | hpgt
        · exact hC' p hpr hple x hx hdvd hsq
        · exfalso
          have hset := hm4 p hpgt (by omega)
          have hBp := hB' p hset
          have h2le := hpr.two_le
          rcases hBp.2 with h | h
          · omega
          · exact h hpr
      exact ih (eliminateMults buf e q i) (m / 8) (m % 8) (by omega)
        (by omega) (by omega) (by omega)
        (by omega)
        (eliminateMults_mono _ _ _ _ _ h0)
        (eliminateMults_mono _ _ _ _ _ h1) hB' hC2 n
    · -- the scan is exhausted: the buffer is fully sieved
      rw [if_pos hsent]
      constructor
      · exact hB' n
      · rintro ⟨hne, h01⟩
        rcases Nat.lt_or_ge n 2 with hn2 | hn2
        · have h01' : n = 0 ∨ n = 1 := by omega
          rcases h01' with h | h
          · subst h; exact eliminateMults_mono _ _ _ _ _ h0
          · subst h; exact eliminateMults_mono _ _ _ _ _ h1
        · have hnp : ¬ n.Prime := by
            rcases h01 with h | h
            · exfalso; omega
            · exact h
          have hn1 : n ≠ 1 := by omega
          have hpr := Nat.minFac_prime hn1
          have hdvd := Nat.minFac_dvd n
          have hsq : n.minFac * n.minFac ≤ n := by
            have hs := Nat.minFac_sq_le_self (by omega) hnp
            rwa [pow_two] at hs
          have hlt8 : n.minFac < 8 * endsqrt := hbound _ (by omega)
          rcases le_or_lt n.minFac (8 * q + i) with hple | hpgt
          · exact hC' _ hpr hple n hne hdvd hsq
          · exfalso
            have hset := hall n.minFac hpgt hlt8
            have hBp := hB' _ hset
            have h2le := hpr.two_le
            rcases hBp.2 with h | h
            · omega
            · exact h hpr

/-! ## The initial buffer and the fully sieved buffer of `main` -/

theorem bitOne_replicate_zero (L n : Nat) :
    bitOne (List.replicate L 0) n = false := by
  unfold bitOne byteAt
  rcases lt_or_ge (n / 8) L with h | h
  · rw [List.getD_eq_getElem _ _ (by simpa using h), List.getElem_replicate,
      Nat.zero_testBit]
  · rw [List.getD_eq_default _ _ (by simpa using h), Nat.zero_testBit]

/-- After `findPrimes`' two initial `setToOne` calls on the zeroed buffer,
exactly the bits of 0 and 1 are set. -/
theorem bitOne_init (L n : Nat) (hL : 1 ≤ L) :
    (bitOne (setToOne (setToOne (List.replicate L 0) 0 0) 0 1) n = true ↔
      (n = 0 ∨ n = 1)) := by
  rw [bitOne_setToOne _ _ _ _ (by norm_num),
    bitOne_setToOne _ _ _ _ (by norm_num), bitOne_replicate_zero]
  simp only [Bool.false_or, Bool.or_eq_true, decide_eq_true_eq,
    setToOne_length, List.length_replicate]
  constructor
  · rintro (⟨h, _⟩ | ⟨h, _⟩) <;> omega
  · intro h
    rcases h with h | h
    · exact Or.inl ⟨by omega, by omega⟩
    · exact Or.inr ⟨by omega, by omega⟩

theorem mainMax_eq (power : Nat) : mainMax power = 2 ^ (power - 3) := by
  unfold mainMax
  rw [Nat.shiftLeft_eq, one_mul]

theorem eight_mainMax (power : Nat) (hp : 3 ≤ power) :
    8 * mainMax power = 2 ^ power := by
  rw [mainMax_eq]
  have h8 : (8 : Nat) = 2 ^ 3 := by norm_num
  rw [h8, ← pow_add]
  congr 1
  omega

theorem mainMax_pos (power : Nat) : 1 ≤ mainMax power := by
  rw [mainMax_eq]
  exact Nat.one_le_two_pow

/-- Every prime that can eliminate anything (square below `2^power`) lies
below the byte-granularity scan bound `8 * endsqrt`. -/
theorem mainEndsqrt_bound (power : Nat) :
    ∀ l, l * l < 8 * mainMax power → l < 8 * mainEndsqrt power := by
  intro l hl
  unfold mainEndsqrt
  set L := mainMax power
  have hsq := Nat.lt_succ_sqrt L
  rw [Nat.succ_eq_add_one] at hsq
  by_contra hcon
  push_neg at hcon
  have h1 : 8 * (Nat.sqrt L + 1) * (8 * (Nat.sqrt L + 1)) ≤ l * l :=
    Nat.mul_le_mul hcon hcon
  have h2 : 8 * (Nat.sqrt L + 1) * (8 * (Nat.sqrt L + 1)) =
      64 * ((Nat.sqrt L + 1) * (Nat.sqrt L + 1)) := by ring
  rw [h2] at h1
  omega

/-- The buffer of `main` after sieving: a bit is set iff its index is
below `2^power` and is 0, 1 or composite. -/
theorem mainRun_bitOne (power : Nat) (hp : 3 ≤ power) (n : Nat) :
    (bitOne (mainRun power) n = true ↔
      (n < 2 ^ power ∧ (n < 2 ∨ ¬ n.Prime))) := by
  have hL : 1 ≤ mainMax power := mainMax_pos power
  have h8 := eight_mainMax power hp
  have hinit := fun m => bitOne_init (mainMax power) m hL
  unfold mainRun findPrimes
  rw [← h8]
  exact findLoop_sieves (mainMax power) (mainEndsqrt power)
    (mainEndsqrt_bound power) (8 * mainEndsqrt power + 8) _ 0 2
    (by norm_num) (by norm_num)
    (by unfold mainEndsqrt; omega)
    (by simp [setToOne_length, List.length_replicate])
    (by omega)
    ((hinit 0).mpr (Or.inl rfl)) ((hinit 1).mpr (Or.inr rfl))
    (fun m hm => by
      rcases (hinit m).mp hm with h | h <;> subst h <;>
        exact ⟨by omega, Or.inl (by omega)⟩)
    (fun p hpr hplt => by
      have := hpr.two_le
      omega)
    n

/-! ## The enumeration loop of `printPrimes` -/

theorem printLoop_mem (buf : List Nat) (e : Nat) :
    ∀ fuel q i, i ≤ 7 → 8 * e ≤ 8 * q + i + fuel →
    ∀ n, (n ∈ printLoop buf e q i fuel ↔
      (8 * q + i < n ∧ n < 8 * e ∧ bitOne buf n = false)) := by
  intro fuel
  induction fuel with
  | zero =>
    intro q i hi hfuel n
    simp only [printLoop, List.not_mem_nil, false_iff]
    rintro ⟨h1, h2, _⟩
    omega
  | succ f ih =>
    intro q i hi hfuel n
    simp only [printLoop]
    rcases searchForZero_cases buf e q i hi with
      ⟨m, hm1, hm2, hm3, hm4, hm5⟩ | ⟨hall, hsent⟩
    · rw [hm5]
      have hcond : ¬ ((m / 8, ((m % 8 : Nat) : Int)).2 = -1) := by
        dsimp only
        omega
      rw [if_neg hcond]
      dsimp only
      rw [Int.toNat_natCast]
      have hm8 : 8 * (m / 8) + m % 8 = m := by omega
      rw [List.mem_cons, ih (m / 8) (m % 8) (by omega) (by omega) n, hm8]
      constructor
      · rintro (h | ⟨h1, h2, h3⟩)
        · subst h
          exact ⟨hm1, hm2, hm3⟩
        · exact ⟨by omega, h2, h3⟩
      · rintro ⟨h1, h2, h3⟩
        rcases Nat.lt_or_ge m n with hgt | hge
        · exact Or.inr ⟨hgt, h2, h3⟩
        · left
          rcases Nat.lt_or_ge n m with hlt2 | hge2
          · exact absurd (hm4 n h1 hlt2) (by simp [h3])
          · omega
    · rw [if_pos hsent]
      simp only [List.not_mem_nil, false_iff]
      rintro ⟨h1, h2, h3⟩
      exact absurd (hall n h1 h2) (by simp [h3])

theorem printLoop_sorted (buf : List Nat) (e : Nat) :
    ∀ fuel q i, i ≤ 7 → 8 * e ≤ 8 * q + i + fuel →
    List.Pairwise (· < ·) (printLoop buf e q i fuel) := by
  intro fuel
  induction fuel with
  | zero =>
    intro q i hi hf
    simp [printLoop]
  | succ f ih =>
    intro q i hi hf
    simp only [printLoop]
    rcases searchForZero_cases buf e q i hi with
      ⟨m, hm1, hm2, hm3, hm4, hm5⟩ | ⟨hall, hsent⟩
    · rw [hm5]
      have hcond : ¬ ((m / 8, ((m % 8 : Nat) : Int)).2 = -1) := by
        dsimp only
        omega
      rw [if_neg hcond]
      dsimp only
      rw [Int.toNat_natCast]
      refine List.Pairwise.cons ?_ (ih (m / 8) (m % 8) (by omega) (by omega))
      intro b hb
      rw [printLoop_mem buf e f (m / 8) (m % 8) (by omega) (by omega) b] at hb
      omega
    · rw [if_pos hsent]
      exact List.Pairwise.nil

/-- The list printed by `main` is exactly the ascending list of primes
below `2^power`. -/
theorem mainPrimes_eq (power : Nat) (hp : 3 ≤ power) :
    mainPrimes power =
      (List.range (2 ^ power)).filter (fun n => decide n.Prime) := by
  have hchar := mainRun_bitOne power hp
  have h8 := eight_mainMax power hp
  haveI : IsAntisymm Nat (· < ·) :=
    ⟨fun a b h1 h2 => absurd h2 (Nat.lt_asymm h1)⟩
  have hsorted1 : List.Pairwise (· < ·) (mainPrimes power) := by
    unfold mainPrimes printPrimes
    exact printLoop_sorted _ _ _ 0 0 (by norm_num) (by omega)
  have hsorted2 : List.Pairwise (· < ·)
      ((List.range (2 ^ power)).filter (fun n => decide n.Prime)) :=
    (List.pairwise_lt_range _).filter _
  apply List.eq_of_perm_of_sorted ?_ hsorted1 hsorted2
  rw [List.perm_ext_iff_of_nodup
    (hsorted1.imp (fun h => Nat.ne_of_lt h))
    (hsorted2.imp (fun h => Nat.ne_of_lt h))]
  intro n
  unfold mainPrimes printPrimes
  rw [printLoop_mem (mainRun power) (mainMax power) _ 0 0 (by norm_num)
    (by omega) n, List.mem_filter, List.mem_range]
  constructor
  · rintro ⟨h1, h2, h3⟩
    have h2' : n < 2 ^ power := by omega
    by_cases hpr : n.Prime
    · exact ⟨h2', by simpa using hpr⟩
    · exfalso
      have hT : bitOne (mainRun power) n = true :=
        (hchar n).mpr ⟨h2', Or.inr hpr⟩
      rw [h3] at hT
      exact Bool.false_ne_true hT
  · rintro ⟨hn, hpd⟩
    have hprn : n.Prime := by simpa using hpd
    have h2le := hprn.two_le
    refine ⟨by omega, by omega, ?_⟩
    cases hb : bitOne (mainRun power) n
    · rfl
    · exfalso
      rcases ((hchar n).mp hb).2 with h | h
      · omega
      · exact h hprn

/-! ## The tighter cutoff of §4.1 (refinement target for claim C4)

The spec allows an implementer to replace the byte-granularity scan bound
`endsqrt = start + ⌊√B⌋ + 1` by "the tighter `⌊√N⌋ + 1`" where `N = 2^P`:
the Scanner then stops at the integer `⌊√N⌋ + 1` itself rather than at a
byte boundary.  The following definitions follow the spec's words, with
the cursor as a single integer. -/

/-- Scan for the first clear bit at position `≥ n` and `< limit`. -/
def scanBit (buf : List Nat) (limit : Nat) : Nat → Option Nat := fun n =>
  if n < limit then
    (if bitOne buf n then scanBit buf limit (n + 1) else some n)
  else none
termination_by n => limit - n

/-- The sieving loop driven by the integer bound `limit`. -/
def tightLoop (e limit : Nat) (buf : List Nat) (c : Nat) :
    Nat → List Nat
  | 0 => buf
  | fuel + 1 =>
    match scanBit (eliminateMults buf e (c / 8) (c % 8)) limit (c + 1) with
    | some m => tightLoop e limit (eliminateMults buf e (c / 8) (c % 8)) m fuel
    | none => eliminateMults buf e (c / 8) (c % 8)

/-- Variant of `findPrimes` with the tighter cutoff `⌊√N⌋ + 1`, `N = 8*e`. -/
def findPrimesTight (buf : List Nat) (e : Nat) : List Nat :=
  tightLoop e (Nat.sqrt (8 * e) + 1) (setToOne (setToOne buf 0 0) 0 1) 2
    (Nat.sqrt (8 * e) + 8)

/-- The tight-cutoff analogue of `mainRun`. -/
def mainRunTight (power : Nat) : List Nat :=
  findPrimesTight (List.replicate (mainMax power) 0) (mainMax power)

theorem scanBit_found (buf : List Nat) (limit : Nat) :
    ∀ d n m, n ≤ m → m < limit → bitOne buf m = false →
    (∀ x, n ≤ x → x < m → bitOne buf x = true) → m - n = d →
    scanBit buf limit n = some m := by
  intro d
  induction d with
  | zero =>
    intro n m h1 h2 h3 h4 hd
    have hnm : m = n := by omega
    subst hnm
    rw [scanBit, if_pos h2, h3]
    simp
  | succ d ih =>
    intro n m h1 h2 h3 h4 hd
    have hn : n < limit := by omega
    have hset : bitOne buf n = true := h4 n (le_refl n) (by omega)
    rw [scanBit, if_pos hn, hset]
    simp only [if_true]
    exact ih (n + 1) m (by omega) h2 h3
      (fun x hx1 hx2 => h4 x (by omega) hx2) (by omega)

theorem scanBit_exhausted (buf : List Nat) (limit : Nat) :
    ∀ d n, (∀ x, n ≤ x → x < limit → bitOne buf x = true) →
    limit - n = d → scanBit buf limit n = none := by
  intro d
  induction d with
  | zero =>
    intro n hall hd
    rw [scanBit, if_neg (by omega)]
  | succ d ih =>
    intro n hall hd
    have hn : n < limit := by omega
    have hset : bitOne buf n = true := hall n (le_refl n) hn
    rw [scanBit, if_pos hn, hset]
    simp only [if_true]
    exact ih (n + 1) (fun x hx1 hx2 => hall x (by omega) hx2) (by omega)

theorem scanBit_cases (buf : List Nat) (limit n : Nat) :
    (∃ m, n ≤ m ∧ m < limit ∧ bitOne buf m = false ∧
      (∀ x, n ≤ x → x < m → bitOne buf x = true) ∧
      scanBit buf limit n = some m) ∨
    ((∀ x, n ≤ x → x < limit → bitOne buf x = true) ∧
      scanBit buf limit n = none) := by
  by_cases hex : ∃ m, n ≤ m ∧ m < limit ∧ bitOne buf m = false
  · left
    have hspec := Nat.find_spec hex
    have hall : ∀ x, n ≤ x → x < Nat.find hex → bitOne buf x = true := by
      intro x hx1 hx2
      cases hbx : bitOne buf x
      · exact absurd ⟨hx1, by omega, hbx⟩ (Nat.find_min hex hx2)
      · rfl
    exact ⟨Nat.find hex, hspec.1, hspec.2.1, hspec.2.2, hall,
      scanBit_found buf limit _ n _ hspec.1 hspec.2.1 hspec.2.2 hall rfl⟩
  · right
    have hall : ∀ x, n ≤ x → x < limit → bitOne buf x = true := by
      intro x hx1 hx2
      cases hbx : bitOne buf x
      · exact absurd ⟨x, hx1, hx2, hbx⟩ hex
      · rfl
    exact ⟨hall, scanBit_exhausted buf limit _ n hall rfl⟩

/-- The invariant argument of `findLoop_sieves`, for the tight driver. -/
theorem tightLoop_sieves (e limit : Nat)
    (hbound : ∀ l, l * l < 8 * e → l < limit) :
    ∀ fuel buf c, 2 ≤ c → c < limit → e ≤ buf.length →
    limit ≤ c + fuel →
    bitOne buf 0 = true → bitOne buf 1 = true →
    (∀ n, bitOne buf n = true → n < 8 * e ∧ (n < 2 ∨ ¬ n.Prime)) →
    (∀ p, p.Prime → p < c →
      ∀ n, n < 8 * e → p ∣ n → p * p ≤ n → bitOne buf n = true) →
    ∀ n, (bitOne (tightLoop e limit buf c fuel) n = true ↔
      (n < 8 * e ∧ (n < 2 ∨ ¬ n.Prime))) := by
  intro fuel
  induction fuel with
  | zero =>
    intro buf c h2 hlt he hfuel h0 h1 hB hC n
    exfalso
    omega
  | succ f ih =>
    intro buf c h2 hlt he hfuel h0 h1 hB hC n
    simp only [tightLoop]
    have hc8 : 8 * (c / 8) + c % 8 = c := by omega
    have hel : ∀ m, (bitOne (eliminateMults buf e (c / 8) (c % 8)) m = true ↔
        (bitOne buf m = true ∨ (c * c ≤ m ∧ c ∣ m ∧ m < 8 * e))) := by
      intro m
      have h := eliminateMults_bitOne buf e (c / 8) (c % 8) m (by omega)
        (by omega) he
      rwa [hc8] at h
    have hB' : ∀ m, bitOne (eliminateMults buf e (c / 8) (c % 8)) m = true →
        m < 8 * e ∧ (m < 2 ∨ ¬ m.Prime) := by
      intro m hm
      rcases (hel m).mp hm with h | ⟨hsq, hdvd, hlt'⟩
      · exact hB m h
      · exact ⟨hlt', Or.inr (not_prime_of_multiple (by omega) hsq hdvd)⟩
    have hC' : ∀ p, p.Prime → p ≤ c →
        ∀ m, m < 8 * e → p ∣ m → p * p ≤ m →
        bitOne (eliminateMults buf e (c / 8) (c % 8)) m = true := by
      intro p hpr hple m hm hdvd hsq
      rcases Nat.lt_or_ge p c with hplt | hpge
      · exact eliminateMults_mono _ _ _ _ _ (hC p hpr hplt m hm hdvd hsq)
      · have hpe : p = c := by omega
        subst hpe
        exact (hel m).mpr (Or.inr ⟨hsq, hdvd, hm⟩)
    rcases scanBit_cases (eliminateMults buf e (c / 8) (c % 8)) limit (c + 1)
      with ⟨m, hm1, hm2, hm3, hm4, hm5⟩ | ⟨hall, hsc⟩
    · rw [hm5]
      have hC2 : ∀ p, p.Prime → p < m →
          ∀ x, x < 8 * e → p ∣ x → p * p ≤ x →
          bitOne (eliminateMults buf e (c / 8) (c % 8)) x = true := by
        intro p hpr hplt x hx hdvd hsq
        rcases le_or_lt p c with hple | hpgt
        · exact hC' p hpr hple x hx hdvd hsq
        · exfalso
          have hset := hm4 p (by omega) (by omega)
          have hBp := hB' p hset
          have h2le := hpr.two_le
          rcases hBp.2 with h | h
          · omega
          · exact h hpr
      exact ih (eliminateMults buf e (c / 8) (c % 8)) m (by omega) hm2
        (by rw [eliminateMults_length]; exact he) (by omega)
        (eliminateMults_mono _ _ _ _ _ h0)
        (eliminateMults_mono _ _ _ _ _ h1) hB' hC2 n
    · rw [hsc]
      constructor
      · exact hB' n
      · rintro ⟨hne, h01⟩
        rcases Nat.lt_or_ge n 2 with hn2 | hn2
        · have h01' : n = 0 ∨ n = 1 := by omega
          rcases h01' with h | h
          · subst h; exact eliminateMults_mono _ _ _ _ _ h0
          · subst h; exact eliminateMults_mono _ _ _ _ _ h1
        · have hnp : ¬ n.Prime := by
            rcases h01 with h | h
            · exfalso; omega
            · exact h
          have hn1 : n ≠ 1 := by omega
          have hpr := Nat.minFac_prime hn1
          have hdvd := Nat.minFac_dvd n
          have hsq : n.minFac * n.minFac ≤ n := by
            have hs := Nat.minFac_sq_le_self (by omega) hnp
            rwa [pow_two] at hs
          have hlt8 : n.minFac < limit := hbound _ (by omega)
          rcases le_or_lt n.minFac c with hple | hpgt
          · exact hC' _ hpr hple n hne hdvd hsq
          · exfalso
            have hset := hall n.minFac (by omega) hlt8
            have hBp := hB' _ hset
            have h2le := hpr.two_le
            rcases hBp.2 with h | h
            · omega
            · exact h hpr

/-- The tight driver fully sieves the buffer of `main` as well. -/
theorem mainRunTight_bitOne (power : Nat) (hp : 3 ≤ power) (n : Nat) :
    (bitOne (mainRunTight power) n = true ↔
      (n < 2 ^ power ∧ (n < 2 ∨ ¬ n.Prime))) := by
  have hL : 1 ≤ mainMax power := mainMax_pos power
  have h8 := eight_mainMax power hp
  have hinit := fun m => bitOne_init (mainMax power) m hL
  have hbound : ∀ l, l * l < 8 * mainMax power →
      l < Nat.sqrt (8 * mainMax power) + 1 := by
    intro l hl
    have := Nat.le_sqrt.mpr (le_of_lt hl)
    omega
  have hlim : 2 < Nat.sqrt (8 * mainMax power) + 1 := by
    have h4 : 2 ≤ Nat.sqrt (8 * mainMax power) :=
      Nat.le_sqrt.mpr (by omega)
    omega
  unfold mainRunTight findPrimesTight
  rw [← h8]
  exact tightLoop_sieves (mainMax power) (Nat.sqrt (8 * mainMax power) + 1)
    hbound (Nat.sqrt (8 * mainMax power) + 8) _ 2 (by norm_num) hlim
    (by simp [setToOne_length, List.length_replicate])
    (by omega)
    ((hinit 0).mpr (Or.inl rfl)) ((hinit 1).mpr (Or.inr rfl))
    (fun m hm => by
      rcases (hinit m).mp hm with h | h <;> subst h <;>
        exact ⟨by omega, Or.inl (by omega)⟩)
    (fun p hpr hplt => by
      have := hpr.two_le
      omega)
    n

/-! ## Byte bounds and lengths of the two drivers -/

theorem findLoop_length (e endsqrt : Nat) : ∀ fuel buf q i,
    (findLoop e endsqrt buf q i fuel).length = buf.length := by
  intro fuel
  induction fuel with
  | zero => intro buf q i; rfl
  | succ f ih =>
    intro buf q i
    simp only [findLoop]
    split
    · exact eliminateMults_length ..
    · rw [ih, eliminateMults_length]

theorem tightLoop_length (e limit : Nat) : ∀ fuel buf c,
    (tightLoop e limit buf c fuel).length = buf.length := by
  intro fuel
  induction fuel with
  | zero => intro buf c; rfl
  | succ f ih =>
    intro buf c
    simp only [tightLoop]
    split
    · rw [ih, eliminateMults_length]
    · exact eliminateMults_length ..

theorem findLoop_bytes_lt (e endsqrt : Nat) : ∀ fuel buf q i,
    (∀ b ∈ buf, b < 256) →
    ∀ b ∈ findLoop e endsqrt buf q i fuel, b < 256 := by
  intro fuel
  induction fuel with
  | zero => intro buf q i h; exact h
  | succ f ih =>
    intro buf q i h
    simp only [findLoop]
    split
    · exact eliminateMults_bytes_lt _ _ _ _ h
    · exact ih _ _ _ (eliminateMults_bytes_lt _ _ _ _ h)

theorem tightLoop_bytes_lt (e limit : Nat) : ∀ fuel buf c,
    (∀ b ∈ buf, b < 256) →
    ∀ b ∈ tightLoop e limit buf c fuel, b < 256 := by
  intro fuel
  induction fuel with
  | zero => intro buf c h; exact h
  | succ f ih =>
    intro buf c h
    simp only [tightLoop]
    split
    · exact ih _ _ (eliminateMults_bytes_lt _ _ _ _ h)
    · exact eliminateMults_bytes_lt _ _ _ _ h

theorem replicate_bytes_lt (L : Nat) :
    ∀ b ∈ List.replicate L (0 : Nat), b < 256 := by
  intro b hb
  rw [List.eq_of_mem_replicate hb]
  norm_num

theorem init_bytes_lt (L : Nat) :
    ∀ b ∈ setToOne (setToOne (List.replicate L 0) 0 0) 0 1, b < 256 :=
  setToOne_bytes_lt _ _ (setToOne_bytes_lt _ _ (replicate_bytes_lt L))

theorem mainRun_length (power : Nat) :
    (mainRun power).length = mainMax power := by
  unfold mainRun findPrimes
  rw [findLoop_length, setToOne_length, setToOne_length,
    List.length_replicate]

theorem mainRunTight_length (power : Nat) :
    (mainRunTight power).length = mainMax power := by
  unfold mainRunTight findPrimesTight
  rw [tightLoop_length, setToOne_length, setToOne_length,
    List.length_replicate]

theorem mainRun_bytes_lt (power : Nat) :
    ∀ b ∈ mainRun power, b < 256 := by
  unfold mainRun findPrimes
  exact findLoop_bytes_lt _ _ _ _ _ _ (init_bytes_lt _)

theorem mainRunTight_bytes_lt (power : Nat) :
    ∀ b ∈ mainRunTight power, b < 256 := by
  unfold mainRunTight findPrimesTight
  exact tightLoop_bytes_lt _ _ _ _ _ (init_bytes_lt _)

/-! ## The crossing loop as a byte-wise OR mask (for idempotence) -/

/-- The cumulative OR-mask that the crossing loop deposits on byte `j`.
It depends only on the trajectory, not on the buffer contents. -/
def elimMask (len e q r cur cind fuel j : Nat) : Nat :=
  match fuel with
  | 0 => 0
  | fuel + 1 =>
    if cur < e then
      (if j = cur ∧ cur < len then 128 >>> cind else 0) |||
        elimMask len e q r (elimStep q r (cur, cind)).1
          (elimStep q r (cur, cind)).2 fuel j
    else 0

theorem byteAt_setToOne (buf : List Nat) (c i j : Nat) :
    byteAt (setToOne buf c i) j =
      byteAt buf j ||| (if j = c ∧ c < buf.length then 128 >>> i else 0) := by
  unfold setToOne
  rw [byteAt_set]
  by_cases h : j = c ∧ c < buf.length
  · rw [if_pos h, if_pos h, h.1]
  · rw [if_neg h, if_neg h, Nat.or_zero]

theorem elimLoop_byteAt (e q r : Nat) : ∀ fuel buf cur cind j,
    byteAt (elimLoop e q r buf cur cind fuel) j =
      byteAt buf j ||| elimMask buf.length e q r cur cind fuel j := by
  intro fuel
  induction fuel with
  | zero =>
    intro buf cur cind j
    simp [elimLoop, elimMask]
  | succ f ih =>
    intro buf cur cind j
    simp only [elimLoop, elimMask]
    by_cases hcur : cur < e
    · rw [if_pos hcur, if_pos hcur, ih, byteAt_setToOne, setToOne_length,
        Nat.or_assoc]
    · rw [if_neg hcur, if_neg hcur, Nat.or_zero]

theorem eliminateMults_byteAt (buf : List Nat) (e q i j : Nat) :
    byteAt (eliminateMults buf e q i) j =
      byteAt buf j |||
        elimMask buf.length e q i
          (if 8 ≤ i * i then 8 * q * q + 2 * q * i + i * i / 8
           else 8 * q * q + 2 * q * i)
          (if 8 ≤ i * i then i * i % 8 else i * i) (8 * e + 8) j := by
  unfold eliminateMults
  exact elimLoop_byteAt e q i (8 * e + 8) buf _ _ j

/-! ## The claims -/

/-- Claim C1: for every `P ≥ 3`, after `findPrimes` and `printPrimes` run
on a zero-initialized buffer of `2^(P-3)` bytes, the file `primes.txt`
contains exactly the primes in `[2, 2^P)`, in strictly ascending order,
one decimal number per line with a trailing newline, and nothing else. -/
theorem primes_output_correct (power : Nat) (hp : 3 ≤ power) :
    mainPrimes power =
      (List.range (2 ^ power)).filter (fun n => decide n.Prime) ∧
    primesFile power = String.join
      (((List.range (2 ^ power)).filter (fun n => decide n.Prime)).map
        (fun p => toString p ++ "\n")) := by
  have h := mainPrimes_eq power hp
  refine ⟨h, ?_⟩
  unfold primesFile
  rw [h]

theorem primes_output_correct_witness :
    3 ≤ 3 ∧
      (mainPrimes 3 =
        (List.range (2 ^ 3)).filter (fun n => decide n.Prime) ∧
      primesFile 3 = String.join
        (((List.range (2 ^ 3)).filter (fun n => decide n.Prime)).map
          (fun p => toString p ++ "\n"))) :=
  ⟨by norm_num, primes_output_correct 3 (by norm_num)⟩

/-- Claim C2: for every prime `p = 8*pointind + ind` with `0 ≤ ind ≤ 7`
whose bit is clear, `eliminateMults` sets exactly the bits at the indices
`p², p²+p, p²+2p, …` that are strictly below `N = 2^P` (i.e. the
multiples of `p` that are at least `p²`) and changes no other bit; in
particular, when `p² ≥ N` the buffer is left entirely unchanged. -/
theorem eliminateMults_correct (power q i : Nat) (buf : List Nat)
    (hp : 3 ≤ power) (hlen : buf.length = 2 ^ (power - 3))
    (hpr : Nat.Prime (8 * q + i)) (hi : i ≤ 7)
    (hclear : bitOne buf (8 * q + i) = false) :
    (∀ n, (bitOne (eliminateMults buf (2 ^ (power - 3)) q i) n = true ↔
      (bitOne buf n = true ∨
        ((8 * q + i) * (8 * q + i) ≤ n ∧ (8 * q + i) ∣ n ∧
          n < 2 ^ power)))) ∧
    (2 ^ power ≤ (8 * q + i) * (8 * q + i) →
      eliminateMults buf (2 ^ (power - 3)) q i = buf) := by
  have h8 : 8 * 2 ^ (power - 3) = 2 ^ power := by
    have h := eight_mainMax power hp
    rwa [mainMax_eq] at h
  have h2le := hpr.two_le
  constructor
  · intro n
    rw [eliminateMults_bitOne buf (2 ^ (power - 3)) q i n hi (by omega)
      (le_of_eq hlen.symm), h8]
  · intro hge
    exact eliminateMults_noop buf _ q i hi (by omega)

theorem eliminateMults_correct_witness :
    (3 ≤ 3 ∧ ([0] : List Nat).length = 2 ^ (3 - 3) ∧
      Nat.Prime (8 * 0 + 2) ∧ 2 ≤ 7 ∧
      bitOne [0] (8 * 0 + 2) = false) ∧
    ((∀ n, (bitOne (eliminateMults [0] (2 ^ (3 - 3)) 0 2) n = true ↔
        (bitOne [0] n = true ∨
          ((8 * 0 + 2) * (8 * 0 + 2) ≤ n ∧ (8 * 0 + 2) ∣ n ∧
            n < 2 ^ 3)))) ∧
      (2 ^ 3 ≤ (8 * 0 + 2) * (8 * 0 + 2) →
        eliminateMults [0] (2 ^ (3 - 3)) 0 2 = [0])) :=
  ⟨⟨by norm_num, by decide, by norm_num, by norm_num, by decide⟩,
    eliminateMults_correct 3 0 2 [0] (by norm_num) (by decide)
      (by norm_num) (by norm_num) (by decide)⟩

/-- Claim C3: `searchForZero`, started from a live cursor representing
the integer `n = 8*pointind + ind`, either returns the cursor of the
smallest `m > n` whose bit is clear and whose byte lies before `end`
(every position in between being set), or, if no clear bit exists
strictly after `n` and before `end`, returns with `ind = -1`; it never
returns a live cursor whose bit is set. -/
theorem searchForZero_correct (buf : List Nat) (e p i : Nat) (hi : i ≤ 7) :
    ((∃ m, 8 * p + i < m ∧ m < 8 * e ∧ bitOne buf m = false) →
      ∃ m, 8 * p + i < m ∧ m < 8 * e ∧ bitOne buf m = false ∧
        (∀ x, 8 * p + i < x → x < m → bitOne buf x = true) ∧
        searchForZero buf e p i = (m / 8, ((m % 8 : Nat) : Int))) ∧
    ((∀ m, 8 * p + i < m → m < 8 * e → bitOne buf m = true) →
      (searchForZero buf e p i).2 = -1) ∧
    (∀ q' i', searchForZero buf e p i = (q', i') → i' ≠ -1 →
      bitOne buf (8 * q' + i'.toNat) = false) := by
  refine ⟨?_, ?_, ?_⟩
  · intro hex
    rcases searchForZero_cases buf e p i hi with
      ⟨m, h1, h2, h3, h4, h5⟩ | ⟨hall, hsent⟩
    · exact ⟨m, h1, h2, h3, h4, h5⟩
    · obtain ⟨m, hm1, hm2, hm3⟩ := hex
      exact absurd (hall m hm1 hm2) (by simp [hm3])
  · intro hall
    exact searchForZero_exhausted buf e p i hi hall
  · intro q' i' hres hne
    rcases searchForZero_cases buf e p i hi with
      ⟨m, h1, h2, h3, h4, h5⟩ | ⟨hall, hsent⟩
    · rw [h5] at hres
      cases hres
      rw [Int.toNat_natCast]
      have hm8 : 8 * (m / 8) + m % 8 = m := by omega
      rw [hm8]
      exact h3
    · exfalso
      apply hne
      have := congrArg Prod.snd hres
      dsimp only at this
      rw [← this]
      exact hsent

theorem searchForZero_correct_witness :
    2 ≤ 7 ∧
    (((∃ m, 8 * 0 + 2 < m ∧ m < 8 * 1 ∧ bitOne [0] m = false) →
      ∃ m, 8 * 0 + 2 < m ∧ m < 8 * 1 ∧ bitOne [0] m = false ∧
        (∀ x, 8 * 0 + 2 < x → x < m → bitOne [0] x = true) ∧
        searchForZero [0] 1 0 2 = (m / 8, ((m % 8 : Nat) : Int))) ∧
    ((∀ m, 8 * 0 + 2 < m → m < 8 * 1 → bitOne [0] m = true) →
      (searchForZero [0] 1 0 2).2 = -1) ∧
    (∀ q' i', searchForZero [0] 1 0 2 = (q', i') → i' ≠ -1 →
      bitOne [0] (8 * q' + i'.toNat) = false)) :=
  ⟨by norm_num, searchForZero_correct [0] 1 0 2 (by norm_num)⟩

/-- Claim C4: sieving with the byte-granularity cutoff
`endsqrt = start + ⌊√(2^(P-3))⌋ + 1` produces exactly the same final
buffer contents — and therefore exactly the same `primes.txt` output —
as sieving with the tighter cutoff `⌊√N⌋ + 1`, `N = 2^P`. -/
theorem cutoff_refinement (power : Nat) (hp : 3 ≤ power) :
    mainRun power = mainRunTight power ∧
    mainPrimes power = printPrimes (mainRunTight power) (mainMax power) := by
  have heq : mainRun power = mainRunTight power := by
    apply buf_ext
    · rw [mainRun_length, mainRunTight_length]
    · exact mainRun_bytes_lt power
    · exact mainRunTight_bytes_lt power
    · intro n
      rw [Bool.eq_iff_iff, mainRun_bitOne power hp n,
        mainRunTight_bitOne power hp n]
  refine ⟨heq, ?_⟩
  unfold mainPrimes
  rw [heq]

theorem cutoff_refinement_witness :
    3 ≤ 3 ∧ (mainRun 3 = mainRunTight 3 ∧
      mainPrimes 3 = printPrimes (mainRunTight 3) (mainMax 3)) :=
  ⟨by norm_num, cutoff_refinement 3 (by norm_num)⟩

/-- Claim C5: every write to the buffer only turns individual bits from 0
to 1 (`setToOne` is a bitwise OR with a single-bit mask), so no bit is
ever cleared after initialization; in particular the bits of 0 and 1, set
at the start of `findPrimes`, are still set after the whole sieve. -/
theorem bits_monotone (power : Nat) (hp : 3 ≤ power) :
    (∀ buf c i n, bitOne buf n = true →
      bitOne (setToOne buf c i) n = true) ∧
    (∀ buf e q i n, bitOne buf n = true →
      bitOne (eliminateMults buf e q i) n = true) ∧
    bitOne (mainRun power) 0 = true ∧ bitOne (mainRun power) 1 = true := by
  have h2 : (2 : Nat) ^ 3 ≤ 2 ^ power := Nat.pow_le_pow_right (by norm_num) hp
  refine ⟨bitOne_setToOne_mono,
    fun buf e q i n h => eliminateMults_mono buf e q i n h, ?_, ?_⟩
  · exact (mainRun_bitOne power hp 0).mpr ⟨by omega, Or.inl (by norm_num)⟩
  · exact (mainRun_bitOne power hp 1).mpr ⟨by omega, Or.inl (by norm_num)⟩

theorem bits_monotone_witness :
    3 ≤ 3 ∧
    ((∀ buf c i n, bitOne buf n = true →
      bitOne (setToOne buf c i) n = true) ∧
    (∀ buf e q i n, bitOne buf n = true →
      bitOne (eliminateMults buf e q i) n = true) ∧
    bitOne (mainRun 3) 0 = true ∧ bitOne (mainRun 3) 1 = true) :=
  ⟨by norm_num, bits_monotone 3 (by norm_num)⟩

/-- Claim C6 counterexample: at `P = 3` the sieving scan bound exceeds
the buffer end — `endsqrt = ⌊√1⌋ + 1 = 2` but the buffer is one byte —
so `endsqrt ≤ end` fails and the scan does read past the buffer. -/
theorem endsqrt_exceeds_end_at_three : ¬ (mainEndsqrt 3 ≤ mainMax 3) := by
  have h1 : mainMax 3 = 1 := by rw [mainMax_eq]; norm_num
  unfold mainEndsqrt
  rw [h1, Nat.sqrt_one]
  norm_num

/-- Claim C6, amended to `P ≥ 4`: the byte-granularity scan bound
`endsqrt = ⌊√(2^(P-3))⌋ + 1` is at most the buffer length `2^(P-3)`, so
every byte the sieving scan dereferences lies inside the buffer. -/
theorem endsqrt_within_end (power : Nat) (hp : 4 ≤ power) :
    mainEndsqrt power ≤ mainMax power := by
  have hL : 2 ≤ mainMax power := by
    rw [mainMax_eq]
    have h1 : (2 : Nat) ^ 1 ≤ 2 ^ (power - 3) :=
      Nat.pow_le_pow_right (by norm_num) (by omega)
    omega
  have hs := Nat.sqrt_lt_self (show 1 < mainMax power by omega)
  unfold mainEndsqrt
  omega

theorem endsqrt_within_end_witness :
    4 ≤ 4 ∧ mainEndsqrt 4 ≤ mainMax 4 :=
  ⟨by norm_num, endsqrt_within_end 4 (by norm_num)⟩

/-- Claim C7: every live cursor keeps its bit offset in `[0, 7]`: the
one-time normalization of `currind = ind²` in `eliminateMults` lands in
`[0, 7]`, the advance-by-`ind` step with its single conditional carry
preserves `[0, 7]`, and `searchForZero` returns either the sentinel `-1`
or an offset in `[0, 7]`. -/
theorem cursor_offset_invariant :
    (∀ q r cur cind, r ≤ 7 → cind ≤ 7 →
      (elimStep q r (cur, cind)).2 ≤ 7) ∧
    (∀ i, i ≤ 7 → (if 8 ≤ i * i then i * i % 8 else i * i) ≤ 7) ∧
    (∀ (buf : List Nat) e q i, i ≤ 7 →
      ((searchForZero buf e q i).2 = -1 ∨
        (0 ≤ (searchForZero buf e q i).2 ∧
          (searchForZero buf e q i).2 ≤ 7))) := by
  refine ⟨?_, ?_, ?_⟩
  · intro q r cur cind hr hc
    exact elimStep_snd_le q r (cur, cind) hr hc
  · intro i hi
    by_cases h8 : 8 ≤ i * i <;> simp only [h8, if_true, if_false] <;> omega
  · intro buf e q i hi
    rcases searchForZero_cases buf e q i hi with
      ⟨m, _, _, _, _, h5⟩ | ⟨_, hsent⟩
    · right
      rw [h5]
      constructor <;> dsimp only <;> omega
    · left
      exact hsent

theorem cursor_offset_invariant_witness :
    (elimStep 0 2 (0, 4)).2 ≤ 7 ∧
    (if 8 ≤ 2 * 2 then 2 * 2 % 8 else 2 * 2) ≤ 7 ∧
    ((searchForZero [0] 1 0 2).2 = -1 ∨
      (0 ≤ (searchForZero [0] 1 0 2).2 ∧
        (searchForZero [0] 1 0 2).2 ≤ 7)) :=
  ⟨cursor_offset_invariant.1 0 2 0 4 (by norm_num) (by norm_num),
   cursor_offset_invariant.2.1 2 (by norm_num),
   cursor_offset_invariant.2.2 [0] 1 0 2 (by norm_num)⟩

/-- Claim C8: whenever the command-line argument is absent, non-numeric,
an integer below 3, or more than one argument is supplied, the program
uses `P = 20`, writes a one-line report to the error stream (preceded,
when a single bad argument is present, by the `Invalid value for power`
diagnostic), and produces `primes.txt` output identical to an invocation
with argument `20`. -/
theorem default_power_fallback (args : List String)
    (h : args = [] ∨ 2 ≤ args.length ∨ (∃ a, args = [a] ∧ atoi a < 3)) :
    (parsePower args).1 = 20 ∧ (parsePower args).2 ≠ [] ∧
    ((parsePower args).2 = ["power = 20"] ∨
      (parsePower args).2 = ["Invalid value for power", "power = 20"]) ∧
    programFile args = programFile ["20"] := by
  have h20 : atoi "20" = 20 := by decide
  have h20p : parsePower ["20"] = (20, ["power = 20"]) := by rfl
  have hq : parsePower args = (20, ["power = 20"]) ∨
      parsePower args = (20, ["Invalid value for power", "power = 20"]) := by
    rcases h with h | h | ⟨a, ha, hlt⟩
    · subst h
      left
      rfl
    · left
      rcases args with _ | ⟨a, rest⟩
      · simp at h
      · rcases rest with _ | ⟨b, rest2⟩
        · simp at h
        · rfl
    · subst ha
      right
      unfold parsePower
      dsimp only
      rw [if_pos hlt]
      rfl
  have hfile : ∀ v, parsePower args = (20, v) →
      programFile args = programFile ["20"] := by
    intro v hv
    unfold programFile
    rw [hv, h20p]
  rcases hq with hq | hq
  · exact ⟨by rw [hq], by rw [hq]; simp, Or.inl (by rw [hq]), hfile _ hq⟩
  · exact ⟨by rw [hq], by rw [hq]; simp, Or.inr (by rw [hq]), hfile _ hq⟩

theorem default_power_fallback_witness :
    ((["foo"] : List String) = [] ∨ 2 ≤ (["foo"] : List String).length ∨
      (∃ a, (["foo"] : List String) = [a] ∧ atoi a < 3)) ∧
    ((parsePower ["foo"]).1 = 20 ∧ (parsePower ["foo"]).2 ≠ [] ∧
      ((parsePower ["foo"]).2 = ["power = 20"] ∨
        (parsePower ["foo"]).2 =
          ["Invalid value for power", "power = 20"]) ∧
      programFile ["foo"] = programFile ["20"]) :=
  ⟨Or.inr (Or.inr ⟨"foo", rfl, by decide⟩),
    default_power_fallback ["foo"]
      (Or.inr (Or.inr ⟨"foo", rfl, by decide⟩))⟩

/-- Claim C9: for every cursor `(pointind, ind)` and every buffer state,
running `eliminateMults` twice in succession yields exactly the same
buffer as running it once: the crossing trajectory depends only on the
cursor, and `setToOne` is an idempotent bitwise OR. -/
theorem eliminateMults_idem (buf : List Nat) (e q i : Nat) :
    eliminateMults (eliminateMults buf e q i) e q i =
      eliminateMults buf e q i := by
  apply List.ext_getElem
  · rw [eliminateMults_length, eliminateMults_length]
  · intro j hj1 hj2
    rw [← List.getD_eq_getElem _ 0 hj1, ← List.getD_eq_getElem _ 0 hj2]
    show byteAt (eliminateMults (eliminateMults buf e q i) e q i) j =
      byteAt (eliminateMults buf e q i) j
    rw [eliminateMults_byteAt, eliminateMults_byteAt, eliminateMults_length,
      Nat.or_assoc, Nat.or_self]

/-- Claim C10: for every index `n` below `2^P`, setting the bit of `n`
(byte `n/8`, offset `n mod 8`) in the freshly zeroed buffer and then
testing a bit the way the Scanner does yields true exactly at `n`; on
the untouched zeroed buffer every test yields false. -/
theorem bit_set_test_roundtrip (power n m : Nat) (hp : 3 ≤ power)
    (hn : n < 2 ^ power) (hm : m < 2 ^ power) :
    (testBitAt (setToOne (List.replicate (2 ^ (power - 3)) 0) (n / 8) (n % 8))
      (m / 8) (m % 8) = decide (m = n)) ∧
    testBitAt (List.replicate (2 ^ (power - 3)) 0) (m / 8) (m % 8) = false := by
  have h8 : 8 * 2 ^ (power - 3) = 2 ^ power := by
    have h := eight_mainMax power hp
    rwa [mainMax_eq] at h
  have hm8 : 8 * (m / 8) + m % 8 = m := by omega
  constructor
  · rw [testBitAt_eq_bitOne _ _ _ (by omega), hm8,
      bitOne_setToOne _ _ _ _ (by omega), bitOne_replicate_zero,
      Bool.false_or, List.length_replicate]
    rw [decide_eq_decide]
    constructor
    · rintro ⟨h1, _⟩
      omega
    · intro h1
      exact ⟨by omega, by omega⟩
  · rw [testBitAt_eq_bitOne _ _ _ (by omega), bitOne_replicate_zero]

theorem bit_set_test_roundtrip_witness :
    (3 ≤ 3 ∧ 2 < 2 ^ 3 ∧ 3 < 2 ^ 3) ∧
    ((testBitAt (setToOne (List.replicate (2 ^ (3 - 3)) 0) (2 / 8) (2 % 8))
        (3 / 8) (3 % 8) = decide (3 = 2)) ∧
      testBitAt (List.replicate (2 ^ (3 - 3)) 0) (3 / 8) (3 % 8) = false) :=
  ⟨⟨by norm_num, by norm_num, by norm_num⟩,
    bit_set_test_roundtrip 3 2 3 (by norm_num) (by norm_num) (by norm_num)⟩

end Primes
